import Mathlib

/-!
# Verification of `delete_empty_folders.py`

A shallow embedding of the traversal-and-decision engine of the
DeleteEmptyFolders utility (`src/delete_empty_folders.py`), together with
proofs about the spec's claims.

The filesystem is modelled as a finite tree.  Three node kinds occur:
regular files, directories (with a `readable` flag: `readable = false`
models a directory whose listing fails with a permission error, while the
node itself can still be `stat`-ed from its parent), and symbolic links to
directories (`ldir`, carrying the contents that would be seen if the link
were resolved; the link's target is *not* part of the subtree it lives in).

`os.walk` is embedded by `walkKids`/`osWalk` following the documented
CPython semantics with the defaults used by the script
(`onerror=None`, `followlinks=False`):
* a directory whose listing raises an error contributes no triples and the
  error is silently discarded;
* symlink-to-directory entries are classified into the `dirs` component of
  the parent's triple but are never descended into;
* the *top* argument of `os.walk` (and `os.path.isdir`) is resolved even if
  it is itself a symlink;
* with `topdown=False` every triple of a directory's subtree is produced
  before the directory's own triple (bottom-up order), and a directory's
  listing is captured when the walk first reaches it.

`main` interleaves the lazy `os.walk` generator with deletions.  A
directory's listing is taken before any triple of its subtree has been
yielded, and the script only ever deletes directories that occur in
already-yielded triples; hence every listing captured by the generator is
the listing found in the *initial* tree, and the candidate sequence of a
run equals the walk of the initial tree (`candidatesOf`).  The emptiness
test, however, runs against the *current* filesystem, which the run model
threads explicitly (`stepDir`).  Roots are modelled as independent trees
(the script imposes no relation between the configured roots).
-/

inductive FSEntry where
  | file (nm : String)
  | dir (nm : String) (readable : Bool) (children : List FSEntry)
  | ldir (nm : String) (target : List FSEntry)

namespace FSEntry

/-- The entry's own name (final path component). -/
def nm : FSEntry → String
  | .file n => n
  | .dir n _ _ => n
  | .ldir n _ => n

/-- `os.path.isdir` / `DirEntry.is_dir()`: both follow symlinks, so a
symlink to a directory counts as a directory. -/
def isDir : FSEntry → Bool
  | .file _ => false
  | .dir _ _ _ => true
  | .ldir _ _ => true

end FSEntry

/-- Python's `str.lower()`, modelled characterwise. -/
def lowerStr (s : String) : String := ⟨s.data.map Char.toLower⟩

/-- `path_is_ignored` (src/delete_empty_folders.py lines 35-43).
Python's `str.lower` is rendered as `lowerStr`; `frag in path`
(substring containment) is rendered as infix containment of the character
lists.  The `logger.debug` calls have no observable effect and are
dropped. -/
def path_is_ignored (path : String) (ignore_these_exact_paths : List String)
    (any_part_of_path_to_ignore : List String) : Bool :=
  if (ignore_these_exact_paths.map lowerStr).contains (lowerStr path) then
    true
  else if any_part_of_path_to_ignore.any
      (fun part => decide ((lowerStr part).data <:+: (lowerStr path).data)) then
    true
  else
    false

/-- The names of the entries a directory listing classifies as
directories (`dirs` in an `os.walk` triple): real directories and
symlinks to directories, in listing order. -/
def dirNames (cs : List FSEntry) : List String :=
  (cs.filter FSEntry.isDir).map FSEntry.nm

/-- The names the listing classifies as non-directories (`files` in an
`os.walk` triple). -/
def fileNames (cs : List FSEntry) : List String :=
  (cs.filter (fun c => !c.isDir)).map FSEntry.nm

/-- All `os.walk` triples (bottom-up) contributed by the subtrees of the
children `cs` of a readable directory whose path is `p`.  Only readable
real directories are descended into: an unreadable directory's
`scandir` raises and `onerror=None` discards the error, and symlinks are
not followed (`followlinks=False`). -/
def walkKids (p : List String) : List FSEntry → List (List String × List String × List String)
  | [] => []
  | FSEntry.file _ :: rest => walkKids p rest
  | FSEntry.dir n true cs :: rest =>
      (walkKids (p ++ [n]) cs ++ [(p ++ [n], dirNames cs, fileNames cs)])
        ++ walkKids p rest
  | FSEntry.dir _ false _ :: rest => walkKids p rest
  | FSEntry.ldir _ _ :: rest => walkKids p rest

/-- `os.walk(path)` where the node at `path` is `e`, with
`topdown=False`, `onerror=None`, `followlinks=False`.  A non-directory or
unreadable top yields nothing; a symlink top is resolved (CPython's
`scandir(top)` follows the link). -/
def osWalk (p : List String) : FSEntry → List (List String × List String × List String)
  | FSEntry.file _ => []
  | FSEntry.dir _ false _ => []
  | FSEntry.dir _ true cs => walkKids p cs ++ [(p, dirNames cs, fileNames cs)]
  | FSEntry.ldir _ tgt => walkKids p tgt ++ [(p, dirNames tgt, fileNames tgt)]

/-- `dir_is_empty` (src/delete_empty_folders.py lines 46-55) applied to an
existing node: `False` unless `os.path.isdir`, then `False` as soon as any
walk triple has a non-empty `files` component, else `True`.  (The early
`return False` of the loop is equivalent to requiring all triples to have
an empty `files` list; triple order is irrelevant here.) -/
def dir_is_empty (e : FSEntry) : Bool :=
  e.isDir && (osWalk [] e).all (fun tr => tr.2.2.isEmpty)

/-- Resolve a path (list of components) in a tree.  Path resolution
follows symlinks and does not need read permission on the intermediate
directories (only the final `scandir`/listing does). -/
def getAt : List String → FSEntry → Option FSEntry
  | [], e => some e
  | _ :: _, FSEntry.file _ => none
  | n :: rest, FSEntry.dir _ _ cs =>
      match cs.find? (fun c => c.nm == n) with
      | some c => getAt rest c
      | none => none
  | n :: rest, FSEntry.ldir _ tgt =>
      match tgt.find? (fun c => c.nm == n) with
      | some c => getAt rest c
      | none => none

/-- `dir_is_empty(dir_path)` as called on a live filesystem `t`:
`os.path.isdir` of a non-existent path is `False`, so the function
returns `False` there. -/
def dir_is_empty_at (t : FSEntry) (cand : List String) : Bool :=
  match getAt cand t with
  | none => false
  | some e => dir_is_empty e

/-- Remove the node at a (non-empty) path: the effect of a successful
`send2trash(dir_path)` on the tree containing the path. -/
def removeAt : List String → FSEntry → FSEntry
  | [], e => e
  | n :: rest, FSEntry.dir m r cs =>
      match rest with
      | [] => FSEntry.dir m r (cs.filter (fun c => !(c.nm == n)))
      | _ :: _ =>
          FSEntry.dir m r (cs.map (fun c => if c.nm == n then removeAt rest c else c))
  | n :: rest, FSEntry.ldir m tgt =>
      match rest with
      | [] => FSEntry.ldir m (tgt.filter (fun c => !(c.nm == n)))
      | _ :: _ =>
          FSEntry.ldir m (tgt.map (fun c => if c.nm == n then removeAt rest c else c))
  | _ :: _, FSEntry.file f => FSEntry.file f

/-- `os.path.join(root, c1), join(·, c2), …`: the path string of a
candidate given the root's path string (separator `/`). -/
def joinPath (root : String) : List String → String
  | [] => root
  | c :: rest => joinPath (root ++ "/" ++ c) rest

/-- The candidate directory paths of one root, in processing order: for
every walk triple `(root, dirs, _)` of the initial tree, in bottom-up
order, each `dirs` entry joined onto the triple's path (main, lines
71-73). -/
def candidatesOf (t : FSEntry) : List (List String) :=
  (osWalk [] t).flatMap (fun tr => tr.2.1.map (fun d => tr.1 ++ [d]))

/-- The run's observable outcome: `deleted_dirs_count`,
`deleted_dirs_list`, and the sequence of `logger.error` events emitted in
the delete-failure handler (lines 84-86; the two records logged for one
failure are modelled as one event). -/
structure RunResult where
  count : Nat
  deleted : List String
  errors : List String
  deriving Repr, DecidableEq

/-- The body of `main`'s inner loop (lines 72-86) for one candidate.
`fail` is the set of paths at which `send2trash` raises.  On an ignored or
non-empty candidate nothing changes; on a raised delete the error is
logged and the accumulator is untouched; on a successful delete the node
is removed from the live tree, the count incremented and the path
appended. -/
def stepDir (exacts frags : List String) (fail : String → Bool) (root : String)
    (st : FSEntry × RunResult) (cand : List String) : FSEntry × RunResult :=
  let t := st.1
  let r := st.2
  let dirPath := joinPath root cand
  if path_is_ignored dirPath exacts frags then (t, r)
  else if !dir_is_empty_at t cand then (t, r)
  else if fail dirPath then
    (t, ⟨r.count, r.deleted, r.errors ++ [dirPath]⟩)
  else
    (removeAt cand t, ⟨r.count + 1, r.deleted ++ [dirPath], r.errors⟩)

/-- Processing of one scan root (lines 68-86).  `none` models a configured
root path that does not exist: `os.walk` of it yields nothing, silently.
A root that exists but is a file or an unreadable directory likewise
yields nothing through `osWalk`. -/
def runRoot (exacts frags : List String) (fail : String → Bool) (rootStr : String) :
    Option FSEntry → RunResult
  | none => ⟨0, [], []⟩
  | some t => ((candidatesOf t).foldl (stepDir exacts frags fail rootStr) (t, ⟨0, [], []⟩)).2

/-- The whole run of `main` over the configured roots, sharing one
accumulator (lines 66-86). -/
def mainRun (exacts frags : List String) (fail : String → Bool) :
    List (String × Option FSEntry) → RunResult
  | [] => ⟨0, [], []⟩
  | (rootStr, t) :: rest =>
      let r := runRoot exacts frags fail rootStr t
      let rr := mainRun exacts frags fail rest
      ⟨r.count + rr.count, r.deleted ++ rr.deleted, r.errors ++ rr.errors⟩

/-- `send2trash` never raising: the failure-free run. -/
def noFail : String → Bool := fun _ => false

/-! ## Claim-side predicates

These formalise the spec's vocabulary, to be compared with the embedded
code.  "A regular file exists anywhere in the subtree" reads the subtree
as the tree of entries reachable through directories; a symlink is a leaf
of the subtree it lives in (its target belongs elsewhere). -/

/-- Some regular file occurs among `cs` or, recursively, inside a real
directory of `cs` (readable or not); symlinks are leaves. -/
def hasFileUnder : List FSEntry → Bool
  | [] => false
  | FSEntry.file _ :: _ => true
  | FSEntry.dir _ _ cs :: rest => hasFileUnder cs || hasFileUnder rest
  | FSEntry.ldir _ _ :: rest => hasFileUnder rest

/-- A regular file exists anywhere in the subtree designated by a path
whose node is `e` (for a symlink path, the designated directory is the
link's target). -/
def subtreeHasFile : FSEntry → Bool
  | FSEntry.file _ => false
  | FSEntry.dir _ _ cs => hasFileUnder cs
  | FSEntry.ldir _ tgt => hasFileUnder tgt

mutual
/-- Every directory in sight (through directories and through the one
resolvable link level) is listable. -/
def allReadable : FSEntry → Bool
  | FSEntry.file _ => true
  | FSEntry.dir _ r cs => r && allReadableList cs
  | FSEntry.ldir _ tgt => allReadableList tgt
/-- `allReadable` for every entry of a list. -/
def allReadableList : List FSEntry → Bool
  | [] => true
  | c :: rest => allReadable c && allReadableList rest
end

mutual
/-- Replace every symlink's target view by nothing, keeping the link
itself.  A traversal that treats links as opaque leaves is exactly one
whose output is invariant under this scrubbing. -/
def scrubLinks : FSEntry → FSEntry
  | FSEntry.file n => FSEntry.file n
  | FSEntry.dir n r cs => FSEntry.dir n r (scrubList cs)
  | FSEntry.ldir n _ => FSEntry.ldir n []
/-- `scrubLinks` applied to every entry of a list. -/
def scrubList : List FSEntry → List FSEntry
  | [] => []
  | c :: rest => scrubLinks c :: scrubList rest
end

/-- No two of the names are equal. -/
def nodupNames : List String → Bool
  | [] => true
  | n :: rest => !(rest.contains n) && nodupNames rest

mutual
/-- A "pure directory tree": every node is a readable real directory, no
files, no symlinks, and sibling names are distinct at every level.  This
is the shape of the spec's file-free chains and towers. -/
def goodEntry : FSEntry → Bool
  | FSEntry.dir _ true cs => nodupNames (cs.map FSEntry.nm) && goodList cs
  | _ => false
/-- `goodEntry` for every entry of a list. -/
def goodList : List FSEntry → Bool
  | [] => true
  | c :: rest => goodEntry c && goodList rest
end

/-- The file-free chain `d0 ⊂ d1 ⊂ … ⊂ dn` of the spec's cascade
scenario: `chainTree n` is the directory `d{n}` containing only the
chain below it. -/
def chainTree : Nat → FSEntry
  | 0 => FSEntry.dir "d0" true []
  | n + 1 => FSEntry.dir ("d" ++ toString (n + 1)) true [chainTree n]

/-- The candidate paths contributed by the walk triples of the subtrees
of `cs` (children of a directory at `p`). -/
def candsKids (p : List String) (cs : List FSEntry) : List (List String) :=
  (walkKids p cs).flatMap (fun tr => tr.2.1.map (fun d => tr.1 ++ [d]))

/-- All candidate paths produced inside a directory at `p` with children
`cs`: the subtree candidates followed by the directory's own `dirs`
entries (its triple is yielded last, bottom-up). -/
def candsUnder (p : List String) (cs : List FSEntry) : List (List String) :=
  candsKids p cs ++ (dirNames cs).map (fun d => p ++ [d])

/-- The C5 exclusion scenario: root `R` containing the file-free chain
`R/a ⊃ R/a/b ⊃ R/a/b/c`. -/
def exclChainRoot : FSEntry :=
  FSEntry.dir "R" true
    [FSEntry.dir "a" true [FSEntry.dir "b" true [FSEntry.dir "c" true []]]]

/-- The run of C5: same chain, `R/a/b` in `exactPaths`. -/
def exclRun : RunResult := runRoot ["R/a/b"] [] noFail "R" (some exclChainRoot)

/-- The C7 scenario: root `R`, readable directory `D` whose subdirectory
`U` is unreadable and hides a file. -/
def hiddenFileRoot : FSEntry :=
  FSEntry.dir "R" true
    [FSEntry.dir "D" true [FSEntry.dir "U" false [FSEntry.file "f.txt"]]]

/-- The run of C7 (no exclusions, `send2trash` never raises). -/
def hiddenFileRun : RunResult := runRoot [] [] noFail "R" (some hiddenFileRoot)

/-- The C6 scenario: first configured root missing, second root existing
with one empty subdirectory. -/
def twoRootsRun : RunResult :=
  mainRun [] [] noFail
    [("R1", none), ("R2", some (FSEntry.dir "R2" true [FSEntry.dir "x" true []]))]

/-! ## Helper lemmas -/

theorem scrubLinks_nm (c : FSEntry) : (scrubLinks c).nm = c.nm := by
  cases c <;> rfl

theorem scrubLinks_isDir (c : FSEntry) : (scrubLinks c).isDir = c.isDir := by
  cases c <;> rfl

theorem dirNames_scrubList (cs : List FSEntry) : dirNames (scrubList cs) = dirNames cs := by
  induction cs with
  | nil => rfl
  | cons c rest ih =>
      unfold scrubList dirNames
      cases h : c.isDir <;>
        simpa [dirNames, List.filter_cons, scrubLinks_isDir, scrubLinks_nm, h] using ih

theorem fileNames_scrubList (cs : List FSEntry) : fileNames (scrubList cs) = fileNames cs := by
  induction cs with
  | nil => rfl
  | cons c rest ih =>
      unfold scrubList fileNames
      cases h : c.isDir <;>
        simpa [fileNames, List.filter_cons, scrubLinks_isDir, scrubLinks_nm, h] using ih

theorem walkKids_scrubList (p : List String) (cs : List FSEntry) :
    walkKids p (scrubList cs) = walkKids p cs := by
  induction p, cs using walkKids.induct with
  | case1 p => rfl
  | case2 p n rest ih => simpa only [scrubList, scrubLinks, walkKids] using ih
  | case3 p n cs rest ih1 ih2 =>
      simp only [scrubList, scrubLinks, walkKids, dirNames_scrubList, fileNames_scrubList,
        ih1, ih2]
  | case4 p n cs rest ih =>
      simpa only [scrubList, scrubLinks, walkKids] using ih
  | case5 p n tgt rest ih =>
      simpa only [scrubList, scrubLinks, walkKids] using ih

theorem joinPath_length_le (cs : List String) :
    ∀ root : String, root.length ≤ (joinPath root cs).length := by
  induction cs with
  | nil => intro root; exact Nat.le_refl _
  | cons c rest ih =>
      intro root
      show root.length ≤ (joinPath (root ++ "/" ++ c) rest).length
      have h := ih (root ++ "/" ++ c)
      have hl : (root ++ "/" ++ c).length = root.length + 1 + c.length := by
        simp [String.length_append]
        rfl
      omega

theorem joinPath_length_lt (root : String) (c : String) (rest : List String) :
    root.length < (joinPath root (c :: rest)).length := by
  show root.length < (joinPath (root ++ "/" ++ c) rest).length
  have h := joinPath_length_le rest (root ++ "/" ++ c)
  have hl : (root ++ "/" ++ c).length = root.length + 1 + c.length := by
    simp [String.length_append]
    rfl
  omega

theorem stepDir_deleted (ex fr : List String) (fail : String → Bool) (root : String)
    (st : FSEntry × RunResult) (c : List String) :
    (stepDir ex fr fail root st c).2.deleted = st.2.deleted ∨
    (stepDir ex fr fail root st c).2.deleted = st.2.deleted ++ [joinPath root c] := by
  simp only [stepDir]
  split_ifs <;> simp

theorem foldl_deleted_gt (ex fr : List String) (fail : String → Bool) (root : String)
    (L : List (List String)) :
    ∀ (st : FSEntry × RunResult),
      (∀ c ∈ L, c ≠ []) → (∀ p ∈ st.2.deleted, root.length < p.length) →
      ∀ p ∈ (L.foldl (stepDir ex fr fail root) st).2.deleted, root.length < p.length := by
  induction L with
  | nil => intro st _ h2; simpa using h2
  | cons c rest ih =>
      intro st h1 h2
      rw [List.foldl_cons]
      refine ih _ (fun x hx => h1 x (List.mem_cons_of_mem _ hx)) ?_
      intro p hp
      rcases stepDir_deleted ex fr fail root st c with h | h
      · rw [h] at hp; exact h2 p hp
      · rw [h] at hp
        rcases List.mem_append.mp hp with h' | h'
        · exact h2 p h'
        · have hpj : p = joinPath root c := by simpa using h'
          subst hpj
          cases c with
          | nil => exact absurd rfl (h1 _ (List.mem_cons_self _ _))
          | cons a as => exact joinPath_length_lt root a as

/-! ## Claims -/

/-- C1: `path_is_ignored(P, exactPaths, pathFragments)` returns true iff
`P` case-insensitively equals some entry of `exactPaths`, or
case-insensitively contains some entry of `pathFragments` as a substring
anywhere in the full path string; otherwise false. -/
theorem c1_path_filter_iff (p : String) (exactPaths pathFragments : List String) :
    path_is_ignored p exactPaths pathFragments = true ↔
      (∃ e ∈ exactPaths, lowerStr p = lowerStr e) ∨
      (∃ f ∈ pathFragments, (lowerStr f).data <:+: (lowerStr p).data) := by
  have hc : ((exactPaths.map lowerStr).contains (lowerStr p) = true) ↔
      ∃ e ∈ exactPaths, lowerStr p = lowerStr e := by
    rw [List.elem_iff, List.mem_map]
    constructor
    · rintro ⟨e, he, hee⟩; exact ⟨e, he, hee.symm⟩
    · rintro ⟨e, he, hee⟩; exact ⟨e, he, hee.symm⟩
  have ha : ((pathFragments.any fun part =>
        decide ((lowerStr part).data <:+: (lowerStr p).data)) = true) ↔
      ∃ f ∈ pathFragments, (lowerStr f).data <:+: (lowerStr p).data := by
    rw [List.any_eq_true]
    simp only [decide_eq_true_eq]
  rw [← hc, ← ha]
  unfold path_is_ignored
  cases hb : (exactPaths.map lowerStr).contains (lowerStr p) <;>
    cases hb2 : (pathFragments.any fun part =>
        decide ((lowerStr part).data <:+: (lowerStr p).data)) <;>
      simp [hb, hb2]

/-- C9: the path filter is a total Boolean function of its three
arguments (witnessed by its very definition as a Lean function into
`Bool`), and empty rule lists mean "no rule matches": the filter returns
false for every path. -/
theorem c9_empty_rules_no_match (p : String) : path_is_ignored p [] [] = false := rfl

/-- C10: a configured scan root is never a deletion candidate: every
candidate lies strictly below the root (non-empty component list), and the
root's own path never occurs in the deleted-paths list, whatever the
exclusion rules, failure pattern and tree. -/
theorem c10_root_survives (ex fr : List String) (fail : String → Bool)
    (rootStr : String) (t : FSEntry) :
    (∀ c ∈ candidatesOf t, c ≠ []) ∧
    rootStr ∉ (runRoot ex fr fail rootStr (some t)).deleted := by
  have hne : ∀ c ∈ candidatesOf t, c ≠ [] := by
    intro c hc
    unfold candidatesOf at hc
    rcases List.mem_flatMap.mp hc with ⟨tr, _, hmem⟩
    rcases List.mem_map.mp hmem with ⟨d, _, hd⟩
    subst hd
    simp
  refine ⟨hne, fun hmem => ?_⟩
  have := foldl_deleted_gt ex fr fail rootStr (candidatesOf t)
    (t, ⟨0, [], []⟩) hne (by simp) rootStr hmem
  omega

/-- C5 (counterexample): in the run on the file-free chain `R/a ⊃ R/a/b ⊃
R/a/b/c` with `R/a/b` excluded by exact path, `R/a/b` itself is indeed
never deleted, but `R/a` IS deleted — the claim's "consequently /a is
also not deleted in that run" is false on the code. -/
theorem c5_counterexample :
    "R/a/b" ∉ exclRun.deleted ∧ "R/a" ∈ exclRun.deleted := by
  simp +decide [exclRun, runRoot, candidatesOf, osWalk, walkKids, dirNames, fileNames,
    stepDir, path_is_ignored, lowerStr, dir_is_empty_at, getAt, dir_is_empty, removeAt,
    joinPath, noFail, exclChainRoot, FSEntry.nm, FSEntry.isDir]

/-- C5 (amended): exclusion protects only the excluded directory's own
candidacy, and does not short-circuit upward: in the same scenario the
run deletes `R/a/b/c`, skips `R/a/b`, and still deletes `R/a` — which at
that point contains only the surviving subdirectory `R/a/b` and no files,
and is therefore "empty" under the files-only emptiness rule (the
surviving excluded directory is carried into the trash with its
parent). -/
theorem c5_amended : exclRun = ⟨2, ["R/a/b/c", "R/a"], []⟩ := by
  simp +decide [exclRun, runRoot, candidatesOf, osWalk, walkKids, dirNames, fileNames,
    stepDir, path_is_ignored, lowerStr, dir_is_empty_at, getAt, dir_is_empty, removeAt,
    joinPath, noFail, exclChainRoot, FSEntry.nm, FSEntry.isDir]

/-- C6 (counterexample): with a missing root `R1` followed by a good root
`R2`, the sibling root is still processed (its empty `R2/x` is deleted)
but no error at all is recorded for `R1` — contradicting the claim's "an
error is reported for it" (`RunResult.errors` captures every
`logger.error` event `main` can emit). -/
theorem c6_counterexample :
    twoRootsRun.deleted = ["R2/x"] ∧ twoRootsRun.errors = [] := by
  simp +decide [twoRootsRun, mainRun, runRoot, candidatesOf, osWalk, walkKids, dirNames, fileNames,
    stepDir, path_is_ignored, lowerStr, dir_is_empty_at, getAt, dir_is_empty, removeAt,
    joinPath, noFail, exclChainRoot, hiddenFileRoot, FSEntry.nm, FSEntry.isDir]

/-- C6 (amended): a configured root that does not exist, or is not a
directory, is silently skipped — `os.walk` of it yields nothing and no
error is reported — it contributes nothing to the result, and the
remaining roots are processed exactly as if the bad root were absent. -/
theorem c6_amended (ex fr : List String) (fail : String → Bool) (n1 n2 f : String)
    (rest : List (String × Option FSEntry)) :
    mainRun ex fr fail ((n1, none) :: rest) = mainRun ex fr fail rest ∧
    mainRun ex fr fail ((n2, some (FSEntry.file f)) :: rest) = mainRun ex fr fail rest := by
  constructor <;> simp [mainRun, runRoot, candidatesOf, osWalk]

/-- C7 (counterexample): in the run on `R/D/U` where `U` is unreadable
and hides a file, the affected directories `R/D/U` and `R/D` are both
deleted and no error is logged — contradicting the claim's "the affected
directory is not deleted … an error is logged" (the run does continue
without crashing, as the claim says). -/
theorem c7_counterexample :
    "R/D/U" ∈ hiddenFileRun.deleted ∧ "R/D" ∈ hiddenFileRun.deleted ∧
    hiddenFileRun.errors = [] := by
  simp +decide [hiddenFileRun, runRoot, candidatesOf, osWalk, walkKids, dirNames, fileNames,
    stepDir, path_is_ignored, lowerStr, dir_is_empty_at, getAt, dir_is_empty, removeAt,
    joinPath, noFail, hiddenFileRoot, FSEntry.nm, FSEntry.isDir]

/-- C7 (amended): an unlistable subdirectory does not crash the check and
the walk continues past it, but `os.walk`'s default `onerror=None`
discards the error silently: the unreadable subtree contributes no walk
entries at all (whatever it hides), no error is logged, and a directory
whose only content is an unreadable subdirectory hiding arbitrarily many
files is still reported empty — hence deleted when it is a candidate. -/
theorem c7_amended (p : List String) (dn un : String) (hidden : List FSEntry) :
    osWalk p (FSEntry.dir un false hidden) = [] ∧
    dir_is_empty (FSEntry.dir dn true [FSEntry.dir un false hidden]) = true := by
  constructor
  · rfl
  · simp [dir_is_empty, osWalk, walkKids, FSEntry.isDir, dirNames, fileNames]

/-- C8 (counterexample): the emptiness test does not treat a symlink
candidate as an opaque leaf: its result depends on the link's target — a
link to a directory holding a file tests non-empty, a link to an empty
directory tests empty — and a run whose root contains a symlink to an
(outside) empty directory enumerates the target and trashes the link. -/
theorem c8_counterexample :
    dir_is_empty (FSEntry.ldir "L" [FSEntry.file "f"]) = false ∧
    dir_is_empty (FSEntry.ldir "L" []) = true ∧
    (runRoot [] [] noFail "R"
        (some (FSEntry.dir "R" true [FSEntry.ldir "L" []]))).deleted = ["R/L"] := by
  simp +decide [runRoot, candidatesOf, osWalk, walkKids, dirNames, fileNames,
    stepDir, path_is_ignored, lowerStr, dir_is_empty_at, getAt, dir_is_empty, removeAt,
    joinPath, noFail, FSEntry.nm, FSEntry.isDir]

/-- C8 (amended): during the *descent* of either walk, symlinks are never
recursed through — the walk output is invariant under scrubbing every
link's target, so links encountered inside a directory are opaque to the
walk and link cycles cannot cause loops; however, a symlink to a
directory handed to the emptiness test as its argument is resolved (as
`os.path.isdir` and `os.walk` resolve their top-level path), behaving
exactly like the target directory, and can then be deleted. -/
theorem c8_amended :
    (∀ (p : List String) (cs : List FSEntry),
        walkKids p (scrubList cs) = walkKids p cs) ∧
    (∀ (n : String) (tgt : List FSEntry),
        dir_is_empty (FSEntry.ldir n tgt) = dir_is_empty (FSEntry.dir n true tgt)) := by
  refine ⟨walkKids_scrubList, fun n tgt => ?_⟩
  simp [dir_is_empty, osWalk, FSEntry.isDir]

theorem walkKids_files_iff : ∀ (p : List String) (cs : List FSEntry),
    allReadableList cs = true →
    (((∀ tr ∈ walkKids p cs, tr.2.2 = ([] : List String)) ∧ fileNames cs = []) ↔
      hasFileUnder cs = false) := by
  intro p cs
  induction p, cs using walkKids.induct with
  | case1 p => intro _; simp [walkKids, fileNames, hasFileUnder]
  | case2 p f rest ih =>
      intro h
      simp [walkKids, fileNames, hasFileUnder, List.filter_cons, FSEntry.isDir]
  | case3 p n cs rest ih1 ih2 =>
      intro h
      have hcs : allReadableList cs = true := by
        simp [allReadableList, allReadable] at h; exact h.1
      have hrest : allReadableList rest = true := by
        simp [allReadableList, allReadable] at h; exact h.2
      have k1 := ih1 hcs
      have k2 := ih2 hrest
      simp only [walkKids, hasFileUnder, List.mem_append, List.mem_singleton]
      constructor
      · rintro ⟨hall, hfn⟩
        have hfn' : fileNames (FSEntry.dir n true cs :: rest) = fileNames rest := by
          simp [fileNames, List.filter_cons, FSEntry.isDir]
        rw [hfn'] at hfn
        have e1 : hasFileUnder cs = false := k1.mp
          ⟨fun tr htr => hall tr (Or.inl (Or.inl htr)),
           by simpa using hall (p ++ [n], dirNames cs, fileNames cs) (Or.inl (Or.inr rfl))⟩
        have e2 : hasFileUnder rest = false := k2.mp
          ⟨fun tr htr => hall tr (Or.inr htr), hfn⟩
        simp [e1, e2]
      · intro hfu
        have e1 : hasFileUnder cs = false := by
          cases h1 : hasFileUnder cs <;> simp [h1] at hfu ⊢
        have e2 : hasFileUnder rest = false := by
          cases h1 : hasFileUnder cs <;> cases h2 : hasFileUnder rest <;>
            simp [h1, h2] at hfu ⊢
        obtain ⟨a1, a2⟩ := k1.mpr e1
        obtain ⟨b1, b2⟩ := k2.mpr e2
        refine ⟨?_, ?_⟩
        · rintro tr (⟨htr | htr⟩ | htr)
          · exact a1 tr htr
          · rw [htr]; exact a2
          · exact b1 tr htr
        · simpa [fileNames, List.filter_cons, FSEntry.isDir] using b2
  | case4 p n cs rest ih =>
      intro h
      simp [allReadableList, allReadable] at h
  | case5 p n tgt rest ih =>
      intro h
      have h' : allReadableList rest = true := by
        simp [allReadableList, allReadable] at h; exact h.2
      have k := ih h'
      simp only [walkKids, hasFileUnder]
      have hfn : fileNames (FSEntry.ldir n tgt :: rest) = fileNames rest := by
        simp [fileNames, List.filter_cons, FSEntry.isDir]
      rw [hfn]
      exact k

/-- C2 (amended): provided every directory in the subtree is listable,
`dir_is_empty` returns true iff the path designates a directory and no
regular file exists anywhere in its subtree at any depth: a non-directory
tests false, a directory containing only (possibly nested) subdirectories
and no files — or nothing at all — tests true, and any file at any depth
makes it test false.  (Without the listability proviso the equivalence
fails, see the counterexample: `os.walk` silently skips unlistable
subtrees.) -/
theorem c2_emptiness (e : FSEntry) (h : allReadable e = true) :
    dir_is_empty e = true ↔ (e.isDir = true ∧ subtreeHasFile e = false) := by
  cases e with
  | file n => simp [dir_is_empty, FSEntry.isDir]
  | dir n r cs =>
      cases r with
      | false => simp [allReadable] at h
      | true =>
          have h' : allReadableList cs = true := by simpa [allReadable] using h
          have key := walkKids_files_iff [] cs h'
          simp only [dir_is_empty, osWalk, FSEntry.isDir, subtreeHasFile, Bool.true_and,
            List.all_append, List.all_cons, List.all_nil, Bool.and_true, Bool.and_eq_true,
            List.all_eq_true, List.isEmpty_iff, true_and]
          rw [← key]
  | ldir n tgt =>
      have h' : allReadableList tgt = true := by simpa [allReadable] using h
      have key := walkKids_files_iff [] tgt h'
      simp only [dir_is_empty, osWalk, FSEntry.isDir, subtreeHasFile, Bool.true_and,
        List.all_append, List.all_cons, List.all_nil, Bool.and_true, Bool.and_eq_true,
        List.all_eq_true, List.isEmpty_iff, true_and]
      rw [← key]

/-- C2 (counterexample): with an unlistable subdirectory the claimed
equivalence fails as stated: `D` is a directory and a regular file exists
in its subtree (inside the unreadable `U`), yet `dir_is_empty` returns
true, because `os.walk` silently skips the subtree it cannot list. -/
theorem c2_counterexample :
    (FSEntry.dir "D" true [FSEntry.dir "U" false [FSEntry.file "f"]]).isDir = true ∧
    subtreeHasFile (FSEntry.dir "D" true [FSEntry.dir "U" false [FSEntry.file "f"]]) = true ∧
    dir_is_empty (FSEntry.dir "D" true [FSEntry.dir "U" false [FSEntry.file "f"]]) = true := by
  refine ⟨rfl, ?_, ?_⟩
  · simp [subtreeHasFile, hasFileUnder]
  · simp [dir_is_empty, osWalk, walkKids, dirNames, fileNames, FSEntry.isDir]

/-- Witness for C2: at the concrete all-readable tree `w` containing only
the empty subdirectory `s`, the readability hypothesis holds and the
characterization is instantiated. -/
theorem c2_emptiness_witness :
    allReadable (FSEntry.dir "w" true [FSEntry.dir "s" true []]) = true ∧
    (dir_is_empty (FSEntry.dir "w" true [FSEntry.dir "s" true []]) = true ↔
      ((FSEntry.dir "w" true [FSEntry.dir "s" true []]).isDir = true ∧
        subtreeHasFile (FSEntry.dir "w" true [FSEntry.dir "s" true []]) = false)) :=
  ⟨by simp [allReadable, allReadableList],
   c2_emptiness _ (by simp [allReadable, allReadableList])⟩

/-- C4: per processed candidate, the accumulator (count, deleted list) is
mutated only by a successful recoverable delete — and then exactly by
incrementing the count and appending that path — in every other case it
is unchanged; when `send2trash` raises on a candidate that reached the
delete (not ignored, empty), the error is logged, the tree and the
accumulator are untouched; and the fold then continues with the remaining
candidates, so one failure never aborts the run. -/
theorem c4_accumulator (ex fr : List String) (fail : String → Bool) (root : String)
    (st : FSEntry × RunResult) (c : List String) :
    ((stepDir ex fr fail root st c).2.count = st.2.count + 1 ∧
     (stepDir ex fr fail root st c).2.deleted = st.2.deleted ++ [joinPath root c] ∧
     fail (joinPath root c) = false ∨
     ((stepDir ex fr fail root st c).2.count = st.2.count ∧
      (stepDir ex fr fail root st c).2.deleted = st.2.deleted)) ∧
    (path_is_ignored (joinPath root c) ex fr = false →
     dir_is_empty_at st.1 c = true →
     fail (joinPath root c) = true →
     stepDir ex fr fail root st c
       = (st.1, ⟨st.2.count, st.2.deleted, st.2.errors ++ [joinPath root c]⟩)) ∧
    (∀ rest : List (List String),
      (c :: rest).foldl (stepDir ex fr fail root) st
        = rest.foldl (stepDir ex fr fail root) (stepDir ex fr fail root st c)) := by
  refine ⟨?_, ?_, ?_⟩
  · simp only [stepDir]
    split_ifs with h1 h2 h3
    · right; simp
    · right; simp
    · right; simp
    · left; simp_all
  · intro h1 h2 h3
    simp [stepDir, h1, h2, h3]
  · intro rest
    simp [List.foldl_cons]

/-- Witness for C4: a concrete failing delete (`send2trash` raises on
`R/x`, the only candidate, which is empty and not excluded) leaves the
tree, count and deleted list unchanged and logs the error. -/
theorem c4_accumulator_witness :
    stepDir [] [] (fun s => s == "R/x") "R"
        (FSEntry.dir "R" true [FSEntry.dir "x" true []], ⟨0, [], []⟩) ["x"]
      = (FSEntry.dir "R" true [FSEntry.dir "x" true []], ⟨0, [], ["R/x"]⟩) :=
  (c4_accumulator [] [] (fun s => s == "R/x") "R"
      (FSEntry.dir "R" true [FSEntry.dir "x" true []], ⟨0, [], []⟩) ["x"]).2.1
    rfl
    (by simp [dir_is_empty_at, getAt, FSEntry.nm, dir_is_empty, osWalk, walkKids,
      dirNames, fileNames, FSEntry.isDir])
    rfl

theorem candsKids_nil (p : List String) : candsKids p [] = [] := by
  simp [candsKids, walkKids]

theorem candsKids_cons_file (p : List String) (f : String) (rest : List FSEntry) :
    candsKids p (FSEntry.file f :: rest) = candsKids p rest := by
  simp [candsKids, walkKids]

theorem candsKids_cons_dir (p : List String) (n : String) (cs rest : List FSEntry) :
    candsKids p (FSEntry.dir n true cs :: rest)
      = candsUnder (p ++ [n]) cs ++ candsKids p rest := by
  simp [candsKids, candsUnder, walkKids, List.flatMap_append]

theorem candsKids_cons_unreadable (p : List String) (n : String) (cs rest : List FSEntry) :
    candsKids p (FSEntry.dir n false cs :: rest) = candsKids p rest := by
  simp [candsKids, walkKids]

theorem candsKids_cons_ldir (p : List String) (n : String) (tgt rest : List FSEntry) :
    candsKids p (FSEntry.ldir n tgt :: rest) = candsKids p rest := by
  simp [candsKids, walkKids]

theorem candidatesOf_eq_candsUnder (n : String) (cs : List FSEntry) :
    candidatesOf (FSEntry.dir n true cs) = candsUnder [] cs := by
  simp [candidatesOf, candsUnder, candsKids, osWalk, List.flatMap_append]

/-- Every candidate inside the children of a good directory at `p` starts
with `p ++ [m]` for some child-directory name `m` and is strictly longer
than `p ++ [m]` would allow only if deeper — in particular it extends `p`
and has length at least `p.length + 2` when it comes from a subtree. -/
theorem candsKids_shape (p0 : List String) (cs0 : List FSEntry) :
    ∀ (p q : List String), goodList cs0 = true → q ∈ candsKids p cs0 →
      ∃ m ∈ dirNames cs0, (p ++ [m]) <+: q ∧ p.length + 1 < q.length := by
  induction p0, cs0 using walkKids.induct with
  | case1 p => intro p' q _ hq; simp [candsKids_nil] at hq
  | case2 p f rest ih => intro p' q hg hq; simp [goodList, goodEntry] at hg
  | case3 p n cs rest ih1 ih2 =>
      intro p' q hg hq
      have hgcs : goodList cs = true := by
        simp [goodList, goodEntry] at hg; exact hg.1.2
      have hgrest : goodList rest = true := by
        simp [goodList, goodEntry] at hg; exact hg.2
      rw [candsKids_cons_dir] at hq
      rcases List.mem_append.mp hq with hq | hq
      · rcases List.mem_append.mp hq with hq | hq
        · -- q from a deeper subtree below child n
          obtain ⟨m, hm, hpre, hlen⟩ := ih1 (p' ++ [n]) q hgcs hq
          refine ⟨n, ?_, ?_, ?_⟩
          · simp [dirNames, List.filter_cons, FSEntry.isDir, FSEntry.nm]
          · exact List.IsPrefix.trans (List.prefix_append _ _) hpre
          · have := hpre.length_le
            simp [List.length_append] at this hlen ⊢
            omega
        · -- q is a direct child of child n
          rcases List.mem_map.mp hq with ⟨d, hd, hdq⟩
          subst hdq
          refine ⟨n, ?_, List.prefix_append _ _, ?_⟩
          · simp [dirNames, List.filter_cons, FSEntry.isDir, FSEntry.nm]
          · simp [List.length_append]
      · obtain ⟨m, hm, hpre, hlen⟩ := ih2 p' q hgrest hq
        refine ⟨m, ?_, hpre, hlen⟩
        simp [dirNames, List.filter_cons, FSEntry.isDir]
        exact Or.inr (by simpa [dirNames] using hm)
  | case4 p n cs rest ih => intro p' q hg hq; simp [goodList, goodEntry] at hg
  | case5 p n tgt rest ih => intro p' q hg hq; simp [goodList, goodEntry] at hg

/-- Every candidate below a good directory at `p` strictly extends `p`. -/
theorem candsUnder_shape (p : List String) (cs : List FSEntry) (q : List String)
    (hg : goodList cs = true) (hq : q ∈ candsUnder p cs) :
    p <+: q ∧ p.length < q.length := by
  rcases List.mem_append.mp hq with hq | hq
  · obtain ⟨m, _, hpre, hlen⟩ := candsKids_shape p cs p q hg hq
    refine ⟨List.IsPrefix.trans (List.prefix_append _ _) hpre, by omega⟩
  · rcases List.mem_map.mp hq with ⟨d, _, hdq⟩
    subst hdq
    exact ⟨List.prefix_append _ _, by simp [List.length_append]⟩

theorem mem_dirNames (cs : List FSEntry) (m : String) (h : m ∈ dirNames cs) :
    m ∈ cs.map FSEntry.nm := by
  simp only [dirNames, List.mem_map, List.mem_filter] at h
  rcases h with ⟨c, ⟨hc, _⟩, rfl⟩
  exact List.mem_map.mpr ⟨c, hc, rfl⟩

theorem not_mem_of_contains_false {ns : List String} {n : String}
    (h : ns.contains n = false) : n ∉ ns := by
  intro hm
  have h2 : ns.contains n = true := List.elem_iff.mpr hm
  rw [h2] at h
  cases h

theorem prefix_segment_eq {p : List String} {n m : String} {q : List String}
    (h1 : (p ++ [n]) <+: q) (h2 : (p ++ [m]) <+: q) : n = m := by
  have hle : (p ++ [n]).length ≤ (p ++ [m]).length := by simp
  have h3 := List.prefix_of_prefix_length_le h1 h2 hle
  have heq := h3.eq_of_length (by simp)
  have h4 := List.append_cancel_left heq
  simpa using h4

theorem goodEntry_dir_iff (n : String) (r : Bool) (cs : List FSEntry) :
    goodEntry (FSEntry.dir n r cs) = true ↔
      (r = true ∧ nodupNames (cs.map FSEntry.nm) = true ∧ goodList cs = true) := by
  cases r
  · constructor
    · intro h; rw [show goodEntry (FSEntry.dir n false cs) = false from rfl] at h; cases h
    · rintro ⟨h, _⟩; cases h
  · constructor
    · intro h
      have h' : (nodupNames (cs.map FSEntry.nm) && goodList cs) = true := h
      exact ⟨rfl, (Bool.and_eq_true _ _).mp h'⟩
    · rintro ⟨_, h1, h2⟩
      show (nodupNames (cs.map FSEntry.nm) && goodList cs) = true
      rw [h1, h2]
      rfl

theorem goodList_cons_iff (c : FSEntry) (rest : List FSEntry) :
    goodList (c :: rest) = true ↔ (goodEntry c = true ∧ goodList rest = true) := by
  have h : goodList (c :: rest) = (goodEntry c && goodList rest) := rfl
  rw [h, Bool.and_eq_true]

theorem nodupNames_cons_iff (x : String) (ns : List String) :
    nodupNames (x :: ns) = true ↔ (ns.contains x = false ∧ nodupNames ns = true) := by
  have h : nodupNames (x :: ns) = (!(ns.contains x) && nodupNames ns) := rfl
  rw [h, Bool.and_eq_true, Bool.not_eq_true']

theorem candsUnder_pairwise (p0 : List String) (cs0 : List FSEntry) :
    ∀ (p : List String), nodupNames (cs0.map FSEntry.nm) = true → goodList cs0 = true →
      List.Pairwise (fun a b => ¬ a <+: b) (candsUnder p cs0) := by
  induction p0, cs0 using walkKids.induct with
  | case1 p => intro p' _ _; simp [candsUnder, candsKids_nil, dirNames]
  | case2 p f rest ih =>
      intro p' _ hgl
      rcases (goodList_cons_iff _ _).mp hgl with ⟨he, _⟩
      rw [show goodEntry (FSEntry.file f) = false from rfl] at he
      cases he
  | case3 p n cs rest ih1 ih2 =>
      intro p' hnd hgl
      rcases (goodList_cons_iff _ _).mp hgl with ⟨hgcs, hgrest⟩
      rcases (goodEntry_dir_iff _ _ _).mp hgcs with ⟨_, hndcs, hglcs⟩
      have hnd' : nodupNames (n :: rest.map FSEntry.nm) = true := hnd
      rcases (nodupNames_cons_iff _ _).mp hnd' with ⟨hnf, hndrest⟩
      have hn_notin : n ∉ rest.map FSEntry.nm := not_mem_of_contains_false hnf
      have hA := ih1 (p' ++ [n]) hndcs hglcs
      have hBC := ih2 p' hndrest hgrest
      have hexp : candsUnder p' (FSEntry.dir n true cs :: rest)
          = (candsUnder (p' ++ [n]) cs ++ candsKids p' rest)
            ++ ((p' ++ [n]) :: (dirNames rest).map (fun d => p' ++ [d])) := by
        simp [candsUnder, candsKids_cons_dir, dirNames, List.filter_cons, FSEntry.isDir,
          FSEntry.nm]
      rw [hexp]
      rw [candsUnder] at hBC
      have hB : List.Pairwise (fun a b => ¬ a <+: b) (candsKids p' rest) :=
        (List.pairwise_append.mp hBC).1
      have hC : List.Pairwise (fun a b => ¬ a <+: b)
          ((dirNames rest).map (fun d => p' ++ [d])) :=
        (List.pairwise_append.mp hBC).2.1
      have shA : ∀ a ∈ candsUnder (p' ++ [n]) cs,
          (p' ++ [n]) <+: a ∧ p'.length + 1 < a.length := by
        intro a ha
        have h := candsUnder_shape (p' ++ [n]) cs a hglcs ha
        refine ⟨h.1, ?_⟩
        have h2 := h.2
        simp only [List.length_append, List.length_cons, List.length_nil] at h2
        omega
      have shB : ∀ b ∈ candsKids p' rest,
          ∃ m ∈ dirNames rest, (p' ++ [m]) <+: b ∧ p'.length + 1 < b.length := by
        intro b hb
        exact candsKids_shape p rest p' b hgrest hb
      rw [List.pairwise_append]
      refine ⟨?_, ?_, ?_⟩
      · rw [List.pairwise_append]
        refine ⟨hA, hB, ?_⟩
        intro a ha b hb hab
        obtain ⟨hpa, _⟩ := shA a ha
        obtain ⟨m, hm, hpb, _⟩ := shB b hb
        have hpn : (p' ++ [n]) <+: b := hpa.trans hab
        have heq := prefix_segment_eq hpn hpb
        exact hn_notin (heq ▸ mem_dirNames rest m hm)
      · rw [List.pairwise_cons]
        refine ⟨?_, hC⟩
        intro b hb hxb
        rcases List.mem_map.mp hb with ⟨m, hm, rfl⟩
        have heq := prefix_segment_eq hxb (List.prefix_refl _)
        exact hn_notin (heq ▸ mem_dirNames rest m hm)
      · intro a ha b hb hab
        have hlb : b.length = p'.length + 1 := by
          rcases List.mem_cons.mp hb with rfl | hb
          · simp
          · rcases List.mem_map.mp hb with ⟨m, hm, rfl⟩
            simp
        have hla : p'.length + 1 < a.length := by
          rcases List.mem_append.mp ha with ha | ha
          · exact (shA a ha).2
          · obtain ⟨m, hm, _, hl⟩ := shB a ha
            exact hl
        have hll := hab.length_le
        omega
  | case4 p n cs rest ih =>
      intro p' _ hgl
      rcases (goodList_cons_iff _ _).mp hgl with ⟨he, _⟩
      rw [show goodEntry (FSEntry.dir n false cs) = false from rfl] at he
      cases he
  | case5 p n tgt rest ih =>
      intro p' _ hgl
      rcases (goodList_cons_iff _ _).mp hgl with ⟨he, _⟩
      rw [show goodEntry (FSEntry.ldir n tgt) = false from rfl] at he
      cases he

theorem nodupNames_iff_nodup (ns : List String) :
    nodupNames ns = true ↔ ns.Nodup := by
  induction ns with
  | nil => simp [nodupNames]
  | cons x rest ih =>
      rw [nodupNames_cons_iff, List.nodup_cons, ih]
      constructor
      · rintro ⟨h1, h2⟩; exact ⟨not_mem_of_contains_false h1, h2⟩
      · rintro ⟨h1, h2⟩
        refine ⟨?_, h2⟩
        cases h : rest.contains x
        · rfl
        · exact absurd (List.elem_iff.mp h) h1

theorem goodList_mem : ∀ {cs : List FSEntry}, goodList cs = true →
    ∀ {c : FSEntry}, c ∈ cs → goodEntry c = true := by
  intro cs
  induction cs with
  | nil => intro _ c hc; cases hc
  | cons c0 rest ih =>
      intro hg c hc
      rcases (goodList_cons_iff _ _).mp hg with ⟨h1, h2⟩
      rcases List.mem_cons.mp hc with rfl | hc
      · exact h1
      · exact ih h2 hc

theorem find?_nm_of_mem {cs : List FSEntry} {m : String}
    (h : m ∈ cs.map FSEntry.nm) :
    ∃ c, cs.find? (fun c => c.nm == m) = some c := by
  induction cs with
  | nil => simp at h
  | cons c rest ih =>
      by_cases hc : c.nm = m
      · exact ⟨c, List.find?_cons_of_pos _ (by simp [hc])⟩
      · have h' : m ∈ rest.map FSEntry.nm := by
          rcases List.mem_map.mp h with ⟨x, hx, hxm⟩
          rcases List.mem_cons.mp hx with rfl | hx
          · exact absurd hxm hc
          · exact List.mem_map.mpr ⟨x, hx, hxm⟩
        obtain ⟨c0, hf⟩ := ih h'
        exact ⟨c0, by rw [List.find?_cons_of_neg _ (by simp [hc]), hf]⟩

theorem getAt_good : ∀ (c : List String) (t : FSEntry), goodEntry t = true →
    ∀ e, getAt c t = some e → goodEntry e = true := by
  intro c
  induction c with
  | nil =>
      intro t ht e he
      rw [show getAt [] t = some t from rfl] at he
      cases he
      exact ht
  | cons m rest ih =>
      intro t ht e he
      cases t with
      | file f => rw [show goodEntry (FSEntry.file f) = false from rfl] at ht; cases ht
      | ldir n tgt => rw [show goodEntry (FSEntry.ldir n tgt) = false from rfl] at ht; cases ht
      | dir n r cs =>
          rcases (goodEntry_dir_iff _ _ _).mp ht with ⟨hr, hnd, hgl⟩
          subst hr
          cases hf : cs.find? (fun c => c.nm == m) with
          | none => simp [getAt, hf] at he
          | some c0 =>
              simp only [getAt, hf] at he
              exact ih c0 (goodList_mem hgl (List.mem_of_find?_eq_some hf)) e he

theorem removeAt_nm (a : List String) (e : FSEntry) : (removeAt a e).nm = e.nm := by
  cases a with
  | nil => rfl
  | cons n rest => cases e <;> cases rest <;> rfl

theorem find?_map_nm (f : FSEntry → FSEntry) (hf : ∀ c, (f c).nm = c.nm) (m : String) :
    ∀ cs : List FSEntry,
      (cs.map f).find? (fun c => c.nm == m) = Option.map f (cs.find? (fun c => c.nm == m)) := by
  intro cs
  induction cs with
  | nil => rfl
  | cons c rest ih =>
      by_cases hc : c.nm = m
      · rw [List.map_cons, List.find?_cons_of_pos _ (by simp [hf, hc]),
          List.find?_cons_of_pos _ (by simp [hc])]
        rfl
      · rw [List.map_cons, List.find?_cons_of_neg _ (by simp [hf, hc]),
          List.find?_cons_of_neg _ (by simp [hc]), ih]

theorem find?_filter_ne (n m : String) (hmn : m ≠ n) :
    ∀ cs : List FSEntry,
      (cs.filter (fun c => !(c.nm == n))).find? (fun c => c.nm == m)
        = cs.find? (fun c => c.nm == m) := by
  intro cs
  induction cs with
  | nil => rfl
  | cons c rest ih =>
      by_cases hc : c.nm = m
      · rw [List.filter_cons_of_pos (by simp [hc, hmn]),
          List.find?_cons_of_pos _ (by simp [hc]), List.find?_cons_of_pos _ (by simp [hc])]
      · by_cases hcn : c.nm = n
        · rw [List.filter_cons_of_neg (by simp [hcn]),
            List.find?_cons_of_neg _ (by simp [hc]), ih]
        · rw [List.filter_cons_of_pos (by simp [hcn]),
            List.find?_cons_of_neg _ (by simp [hc]), List.find?_cons_of_neg _ (by simp [hc]),
            ih]

theorem goodList_filter (pred : FSEntry → Bool) :
    ∀ cs : List FSEntry, goodList cs = true → goodList (cs.filter pred) = true := by
  intro cs
  induction cs with
  | nil => intro _; rfl
  | cons c rest ih =>
      intro hg
      rcases (goodList_cons_iff _ _).mp hg with ⟨h1, h2⟩
      cases hp : pred c
      · rw [List.filter_cons_of_neg (by simp [hp])]
        exact ih h2
      · rw [List.filter_cons_of_pos (by simp [hp])]
        exact (goodList_cons_iff _ _).mpr ⟨h1, ih h2⟩

theorem nodupNames_filter (pred : FSEntry → Bool) (cs : List FSEntry)
    (h : nodupNames (cs.map FSEntry.nm) = true) :
    nodupNames ((cs.filter pred).map FSEntry.nm) = true := by
  rw [nodupNames_iff_nodup] at h ⊢
  exact List.Nodup.sublist (List.Sublist.map FSEntry.nm (List.filter_sublist cs)) h

theorem goodEntry_removeAt : ∀ (a : List String) (e : FSEntry),
    goodEntry e = true → goodEntry (removeAt a e) = true := by
  intro a
  induction a with
  | nil => intro e h; exact h
  | cons n arest ih =>
      intro e h
      cases e with
      | file f => rw [show goodEntry (FSEntry.file f) = false from rfl] at h; cases h
      | ldir m tgt => rw [show goodEntry (FSEntry.ldir m tgt) = false from rfl] at h; cases h
      | dir m r cs =>
          rcases (goodEntry_dir_iff _ _ _).mp h with ⟨hr, hnd, hgl⟩
          subst hr
          cases arest with
          | nil =>
              show goodEntry (FSEntry.dir m true (cs.filter (fun c => !(c.nm == n)))) = true
              exact (goodEntry_dir_iff _ _ _).mpr
                ⟨rfl, nodupNames_filter _ cs hnd, goodList_filter _ cs hgl⟩
          | cons a1 a2 =>
              show goodEntry (FSEntry.dir m true
                (cs.map (fun c => if c.nm == n then removeAt (a1 :: a2) c else c))) = true
              refine (goodEntry_dir_iff _ _ _).mpr ⟨rfl, ?_, ?_⟩
              · have hmap : (cs.map (fun c => if c.nm == n then removeAt (a1 :: a2) c else c)).map
                    FSEntry.nm = cs.map FSEntry.nm := by
                  rw [List.map_map]
                  refine List.map_congr_left ?_
                  intro c _
                  by_cases hc : c.nm = n <;> simp [hc, removeAt_nm]
                rw [hmap]
                exact hnd
              · clear hnd h
                induction cs with
                | nil => rfl
                | cons c0 crest ihc =>
                    rcases (goodList_cons_iff _ _).mp hgl with ⟨hc1, hc2⟩
                    rw [List.map_cons]
                    refine (goodList_cons_iff _ _).mpr ⟨?_, ihc hc2⟩
                    by_cases hc : c0.nm = n
                    · simp only [hc, beq_self_eq_true, if_true]
                      exact ih c0 hc1
                    · have hb : (c0.nm == n) = false := by simp [hc]
                      simpa [hb] using hc1

theorem getAt_removeAt_isSome : ∀ (a : List String) (t : FSEntry) (c : List String),
    a ≠ [] → ¬ a <+: c → goodEntry t = true →
    (getAt c t).isSome = true → (getAt c (removeAt a t)).isSome = true := by
  intro a
  induction a with
  | nil => intro t c h; exact absurd rfl h
  | cons n arest ih =>
      intro t c _ hnp hgood hsome
      cases t with
      | file f => rw [show goodEntry (FSEntry.file f) = false from rfl] at hgood; cases hgood
      | ldir m tgt =>
          rw [show goodEntry (FSEntry.ldir m tgt) = false from rfl] at hgood; cases hgood
      | dir m r cs =>
          rcases (goodEntry_dir_iff _ _ _).mp hgood with ⟨hr, _, hgl⟩
          subst hr
          cases c with
          | nil => simp [getAt]
          | cons m' crest =>
              cases hf : cs.find? (fun x => x.nm == m') with
              | none => simp [getAt, hf] at hsome
              | some c0 =>
                  have hzsome : (getAt crest c0).isSome = true := by
                    simpa [getAt, hf] using hsome
                  have hc0nm : c0.nm = m' := by
                    have := List.find?_some hf
                    simpa using this
                  have hc0good : goodEntry c0 = true :=
                    goodList_mem hgl (List.mem_of_find?_eq_some hf)
                  cases arest with
                  | nil =>
                      by_cases hm : m' = n
                      · subst hm
                        exact absurd ⟨crest, rfl⟩ hnp
                      · show (getAt (m' :: crest)
                            (FSEntry.dir m true (cs.filter fun c => !(c.nm == n)))).isSome = true
                        simp only [getAt, find?_filter_ne n m' hm cs, hf]
                        exact hzsome
                  | cons a1 a2 =>
                      have hfmap := find?_map_nm
                        (fun c => if c.nm == n then removeAt (a1 :: a2) c else c)
                        (fun c => by by_cases hc : c.nm = n <;> simp [hc, removeAt_nm]) m' cs
                      by_cases hm : m' = n
                      · subst hm
                        have hnp' : ¬ (a1 :: a2) <+: crest := by
                          intro hp
                          exact hnp (List.cons_prefix_cons.mpr ⟨rfl, hp⟩)
                        have hrec := ih c0 crest (by simp) hnp' hc0good hzsome
                        show (getAt (m' :: crest) (FSEntry.dir m true
                          (cs.map fun c => if c.nm == m' then removeAt (a1 :: a2) c else c))).isSome
                            = true
                        simp only [getAt, hfmap, hf, Option.map_some']
                        simp only [hc0nm, beq_self_eq_true, if_true]
                        exact hrec
                      · show (getAt (m' :: crest) (FSEntry.dir m true
                          (cs.map fun c => if c.nm == n then removeAt (a1 :: a2) c else c))).isSome
                            = true
                        simp only [getAt, hfmap, hf, Option.map_some']
                        have hb : (c0.nm == n) = false := by simp [hc0nm, hm]
                        simp only [hb]
                        simpa using hzsome

theorem candsUnder_resolvable (p0 : List String) (cs0 : List FSEntry) :
    ∀ (p q : List String) (nm0 : String) (r0 : Bool),
      nodupNames (cs0.map FSEntry.nm) = true → goodList cs0 = true →
      q ∈ candsUnder p cs0 →
      ∃ qr, q = p ++ qr ∧ (getAt qr (FSEntry.dir nm0 r0 cs0)).isSome = true := by
  induction p0, cs0 using walkKids.induct with
  | case1 p =>
      intro p' q _ _ _ _ hq
      simp [candsUnder, candsKids_nil, dirNames] at hq
  | case2 p f rest ih =>
      intro p' q _ _ _ hgl hq
      rcases (goodList_cons_iff _ _).mp hgl with ⟨he, _⟩
      rw [show goodEntry (FSEntry.file f) = false from rfl] at he
      cases he
  | case3 p n cs rest ih1 ih2 =>
      intro p' q nm0 r0 hnd hgl hq
      rcases (goodList_cons_iff _ _).mp hgl with ⟨hgcs, hgrest⟩
      rcases (goodEntry_dir_iff _ _ _).mp hgcs with ⟨_, hndcs, hglcs⟩
      have hnd' : nodupNames (n :: rest.map FSEntry.nm) = true := hnd
      rcases (nodupNames_cons_iff _ _).mp hnd' with ⟨hnf, hndrest⟩
      have hn_notin : n ∉ rest.map FSEntry.nm := not_mem_of_contains_false hnf
      have hexp : candsUnder p' (FSEntry.dir n true cs :: rest)
          = (candsUnder (p' ++ [n]) cs ++ candsKids p' rest)
            ++ ((p' ++ [n]) :: (dirNames rest).map (fun d => p' ++ [d])) := by
        simp [candsUnder, candsKids_cons_dir, dirNames, List.filter_cons, FSEntry.isDir,
          FSEntry.nm]
      rw [hexp] at hq
      rcases List.mem_append.mp hq with hq | hq
      · rcases List.mem_append.mp hq with hq | hq
        · -- inside the subtree of child n
          obtain ⟨qr, hqr, hres⟩ := ih1 (p' ++ [n]) q n true hndcs hglcs hq
          refine ⟨n :: qr, by simpa [List.append_assoc] using hqr, ?_⟩
          have hfind : (FSEntry.dir n true cs :: rest).find? (fun x => x.nm == n)
              = some (FSEntry.dir n true cs) :=
            List.find?_cons_of_pos _ (by simp [FSEntry.nm])
          cases qr with
          | nil => simp [getAt, hfind]
          | cons q1 q2 => simpa [getAt, hfind] using hres
        · -- inside a sibling subtree
          have hq' : q ∈ candsUnder p' rest := List.mem_append.mpr (Or.inl hq)
          obtain ⟨qr, hqr, hres⟩ := ih2 p' q nm0 r0 hndrest hgrest hq'
          obtain ⟨m, hm, hpre, _⟩ := candsKids_shape p rest p' q hgrest hq
          have hm_names : m ∈ rest.map FSEntry.nm := mem_dirNames rest m hm
          have hmn : m ≠ n := fun h => hn_notin (h ▸ hm_names)
          -- qr starts with m
          obtain ⟨s, hs⟩ := hpre
          rw [hqr] at hs
          rw [List.append_assoc] at hs
          have hqr_eq : qr = m :: s := (List.append_cancel_left hs).symm
          refine ⟨qr, hqr, ?_⟩
          rw [hqr_eq] at hres ⊢
          have hfind : (FSEntry.dir n true cs :: rest).find? (fun x => x.nm == m)
              = rest.find? (fun x => x.nm == m) :=
            List.find?_cons_of_neg _ (by simp [FSEntry.nm, hmn.symm])
          cases hfr : rest.find? (fun x => x.nm == m) with
          | none => rw [show getAt (m :: s) (FSEntry.dir nm0 r0 rest)
                = match rest.find? (fun x => x.nm == m) with
                  | some c => getAt s c
                  | none => none from rfl, hfr] at hres; cases hres
          | some c0 =>
              have hres' : (getAt s c0).isSome = true := by
                simpa [getAt, hfr] using hres
              simpa [getAt, hfind, hfr] using hres'
      · rcases List.mem_cons.mp hq with rfl | hq
        · -- the child n itself
          refine ⟨[n], rfl, ?_⟩
          have hfind : (FSEntry.dir n true cs :: rest).find? (fun x => x.nm == n)
              = some (FSEntry.dir n true cs) :=
            List.find?_cons_of_pos _ (by simp [FSEntry.nm])
          simp [getAt, hfind]
        · -- a direct child of a sibling
          rcases List.mem_map.mp hq with ⟨m, hm, rfl⟩
          have hm_names : m ∈ rest.map FSEntry.nm := mem_dirNames rest m hm
          have hmn : m ≠ n := fun h => hn_notin (h ▸ hm_names)
          obtain ⟨c0, hf0⟩ := find?_nm_of_mem hm_names
          refine ⟨[m], rfl, ?_⟩
          have hfind : (FSEntry.dir n true cs :: rest).find? (fun x => x.nm == m)
              = rest.find? (fun x => x.nm == m) :=
            List.find?_cons_of_neg _ (by simp [FSEntry.nm, hmn.symm])
          simp [getAt, hfind, hf0]
  | case4 p n cs rest ih =>
      intro p' q _ _ _ hgl hq
      rcases (goodList_cons_iff _ _).mp hgl with ⟨he, _⟩
      rw [show goodEntry (FSEntry.dir n false cs) = false from rfl] at he
      cases he
  | case5 p n tgt rest ih =>
      intro p' q _ _ _ hgl hq
      rcases (goodList_cons_iff _ _).mp hgl with ⟨he, _⟩
      rw [show goodEntry (FSEntry.ldir n tgt) = false from rfl] at he
      cases he

theorem goodList_no_files (p0 : List String) (cs0 : List FSEntry) :
    ∀ p, goodList cs0 = true →
      (∀ tr ∈ walkKids p cs0, tr.2.2 = ([] : List String)) ∧ fileNames cs0 = [] := by
  induction p0, cs0 using walkKids.induct with
  | case1 p => intro p' _; simp [walkKids, fileNames]
  | case2 p f rest ih =>
      intro p' hgl
      rcases (goodList_cons_iff _ _).mp hgl with ⟨he, _⟩
      rw [show goodEntry (FSEntry.file f) = false from rfl] at he
      cases he
  | case3 p n cs rest ih1 ih2 =>
      intro p' hgl
      rcases (goodList_cons_iff _ _).mp hgl with ⟨hgcs, hgrest⟩
      rcases (goodEntry_dir_iff _ _ _).mp hgcs with ⟨_, _, hglcs⟩
      obtain ⟨ha1, ha2⟩ := ih1 (p' ++ [n]) hglcs
      obtain ⟨hb1, hb2⟩ := ih2 p' hgrest
      constructor
      · intro tr htr
        simp only [walkKids, List.mem_append, List.mem_singleton] at htr
        rcases htr with (htr | htr) | htr
        · exact ha1 tr htr
        · rw [htr]; exact ha2
        · exact hb1 tr htr
      · simpa [fileNames, List.filter_cons, FSEntry.isDir] using hb2
  | case4 p n cs rest ih =>
      intro p' hgl
      rcases (goodList_cons_iff _ _).mp hgl with ⟨he, _⟩
      rw [show goodEntry (FSEntry.dir n false cs) = false from rfl] at he
      cases he
  | case5 p n tgt rest ih =>
      intro p' hgl
      rcases (goodList_cons_iff _ _).mp hgl with ⟨he, _⟩
      rw [show goodEntry (FSEntry.ldir n tgt) = false from rfl] at he
      cases he

theorem goodEntry_dir_is_empty (e : FSEntry) (h : goodEntry e = true) :
    dir_is_empty e = true := by
  cases e with
  | file f => rw [show goodEntry (FSEntry.file f) = false from rfl] at h; cases h
  | ldir n tgt => rw [show goodEntry (FSEntry.ldir n tgt) = false from rfl] at h; cases h
  | dir n r cs =>
      rcases (goodEntry_dir_iff _ _ _).mp h with ⟨hr, _, hgl⟩
      subst hr
      obtain ⟨h1, h2⟩ := goodList_no_files [] cs [] hgl
      simp only [dir_is_empty, osWalk, FSEntry.isDir, Bool.true_and, List.all_append,
        List.all_cons, List.all_nil, Bool.and_true, Bool.and_eq_true, List.all_eq_true,
        List.isEmpty_iff]
      exact ⟨fun tr htr => h1 tr htr, h2⟩

theorem path_is_ignored_nil (p : String) : path_is_ignored p [] [] = false := rfl

theorem foldl_good_deletes_all (root : String) :
    ∀ (L : List (List String)) (t : FSEntry) (r : RunResult),
      goodEntry t = true →
      (∀ c ∈ L, c ≠ [] ∧ (getAt c t).isSome = true) →
      List.Pairwise (fun a b => ¬ a <+: b) L →
      (L.foldl (stepDir [] [] noFail root) (t, r)).2
        = ⟨r.count + L.length, r.deleted ++ L.map (joinPath root), r.errors⟩ := by
  intro L
  induction L with
  | nil => intro t r _ _ _; simp
  | cons c rest ih =>
      intro t r hgood hall hpw
      obtain ⟨hne, hsome⟩ := hall c (List.mem_cons_self _ _)
      obtain ⟨e, he⟩ := Option.isSome_iff_exists.mp hsome
      have hgoode := getAt_good c t hgood e he
      have hemp : dir_is_empty_at t c = true := by
        simp [dir_is_empty_at, he, goodEntry_dir_is_empty e hgoode]
      have hstep : stepDir [] [] noFail root (t, r) c
          = (removeAt c t, ⟨r.count + 1, r.deleted ++ [joinPath root c], r.errors⟩) := by
        simp [stepDir, path_is_ignored_nil, hemp, noFail]
      rw [List.foldl_cons, hstep]
      have hrest : ∀ c' ∈ rest, c' ≠ [] ∧ (getAt c' (removeAt c t)).isSome = true := by
        intro c' hc'
        obtain ⟨hne', hsome'⟩ := hall c' (List.mem_cons_of_mem _ hc')
        exact ⟨hne', getAt_removeAt_isSome c t c' hne
          ((List.pairwise_cons.mp hpw).1 c' hc') hgood hsome'⟩
      rw [ih (removeAt c t) ⟨r.count + 1, r.deleted ++ [joinPath root c], r.errors⟩
        (goodEntry_removeAt c t hgood) hrest (List.pairwise_cons.mp hpw).2]
      simp only [List.length_cons, List.map_cons, RunResult.mk.injEq]
      refine ⟨by omega, by simp, by simp⟩

/-- C3: on a file-free tree of readable directories with distinct sibling
names (in particular on any file-free chain of nested directories), a
single run with no exclusions and no delete failures deletes *every*
directory strictly below the root, in exactly the bottom-up candidate
order of the walk; and that order never lists a directory before any of
its descendants (no earlier candidate is a path prefix of a later one),
so the deleted-paths sequence records child before parent and each parent
is deleted in the same run as its children, without re-invocation. -/
theorem c3_bottom_up (root : String) (t : FSEntry) (h : goodEntry t = true) :
    (runRoot [] [] noFail root (some t)).deleted
        = (candidatesOf t).map (joinPath root) ∧
    List.Pairwise (fun a b => ¬ a <+: b) (candidatesOf t) := by
  cases t with
  | file f => rw [show goodEntry (FSEntry.file f) = false from rfl] at h; cases h
  | ldir n tgt => rw [show goodEntry (FSEntry.ldir n tgt) = false from rfl] at h; cases h
  | dir n r cs =>
      rcases (goodEntry_dir_iff _ _ _).mp h with ⟨hr, hnd, hgl⟩
      subst hr
      have hpw : List.Pairwise (fun a b => ¬ a <+: b)
          (candidatesOf (FSEntry.dir n true cs)) := by
        rw [candidatesOf_eq_candsUnder]
        exact candsUnder_pairwise [] cs [] hnd hgl
      refine ⟨?_, hpw⟩
      have hall : ∀ c ∈ candidatesOf (FSEntry.dir n true cs),
          c ≠ [] ∧ (getAt c (FSEntry.dir n true cs)).isSome = true := by
        intro c hc
        rw [candidatesOf_eq_candsUnder] at hc
        obtain ⟨qr, hq, hres⟩ := candsUnder_resolvable [] cs [] c n true hnd hgl hc
        rw [List.nil_append] at hq
        subst hq
        refine ⟨?_, hres⟩
        have := (candsUnder_shape [] cs c hgl hc).2
        intro hnil
        rw [hnil] at this
        simp at this
      show ((candidatesOf (FSEntry.dir n true cs)).foldl (stepDir [] [] noFail root)
        (FSEntry.dir n true cs, ⟨0, [], []⟩)).2.deleted = _
      rw [foldl_good_deletes_all root (candidatesOf (FSEntry.dir n true cs))
        (FSEntry.dir n true cs) ⟨0, [], []⟩ h hall hpw]
      simp

/-- Witness for C3: the three-level chain `root/d2/d1/d0` satisfies the
hypothesis and instantiates the theorem. -/
theorem c3_bottom_up_witness :
    goodEntry (FSEntry.dir "root" true [chainTree 2]) = true ∧
    ((runRoot [] [] noFail "/a" (some (FSEntry.dir "root" true [chainTree 2]))).deleted
        = (candidatesOf (FSEntry.dir "root" true [chainTree 2])).map (joinPath "/a") ∧
     List.Pairwise (fun a b => ¬ a <+: b)
       (candidatesOf (FSEntry.dir "root" true [chainTree 2]))) :=
  ⟨by simp +decide [goodEntry, goodList, nodupNames, chainTree, FSEntry.nm],
   c3_bottom_up "/a" _ (by simp +decide [goodEntry, goodList, nodupNames, chainTree, FSEntry.nm])⟩

/-- The cascade of the spec's example, computed concretely: one run on
the file-free chain deletes the deepest directory first and then each
parent, child before parent. -/
theorem chain_run_concrete :
    (runRoot [] [] noFail "/a" (some (FSEntry.dir "root" true [chainTree 2]))).deleted
      = ["/a/d2/d1/d0", "/a/d2/d1", "/a/d2"] := by
  simp +decide [runRoot, candidatesOf, osWalk, walkKids, dirNames, fileNames, stepDir,
    path_is_ignored, lowerStr, dir_is_empty_at, getAt, dir_is_empty, removeAt, joinPath,
    noFail, chainTree, FSEntry.nm, FSEntry.isDir]
